import Mathlib

/-!
Verification development for the bexpand brace-expansion library
(`src/lib.rs`, `src/parser.rs`, `src/sequence.rs`).

The Rust code is shallowly embedded:
* text is `List Char`;
* `sequence.rs`'s generic `Sequence<T>`/`SequenceIterator<T>` is embedded over
  the unsigned "proxy" domain as integers with explicit bounds `lo`/`hi`
  (`i64` ranges use the `i64` bounds, `char` ranges use the `u32` bounds, as in
  the `CheckedAddSub` impls of the source);
* fallible items are `Except Unit _` (`CharTryFromError` carries no data);
* parsers are `List Char → Option (List Char × α)` returning the unconsumed
  rest and the output, `none` on an error (all nom errors in this code are
  plain backtrackable errors; no `cut`/`Failure` is used);
* iteration is embedded as the full finite list of produced items.

Recursive loops are driven by explicit fuel so that every definition is a
structural recursion and evaluates on concrete inputs inside `decide`/`rfl`.
-/

set_option maxRecDepth 10000

deriving instance DecidableEq for Except

namespace Bexpand

abbrev Str := List Char

/-! ### Range engine (`src/sequence.rs`)

`SequenceItem` maps each item type to an unsigned proxy (`i64` for `i64`,
`u32` code points for `char`).  `CheckedAddSub` is `checked_add_unsigned` /
`checked_sub_unsigned` for the signed proxies and plain `checked_add` /
`checked_sub` for the unsigned ones; in both cases the operation fails exactly
when the mathematical result leaves the proxy's representable interval
`[lo, hi]`, which is how it is embedded here. -/

def i64lo : Int := -(2 ^ 63)
def i64hi : Int := 2 ^ 63 - 1
def u32lo : Int := 0
def u32hi : Int := 2 ^ 32 - 1

/-- Embeds `checked_add` on a proxy whose maximal value is `hi` (adding an unsigned
`incr` can only overflow upward). -/
def checkedAdd (hi : Int) (x : Int) (incr : Nat) : Option Int :=
  if x + incr ≤ hi then some (x + incr) else none

/-- Embeds `checked_sub` on a proxy whose minimal value is `lo` (subtracting an
unsigned `incr` can only overflow downward). -/
def checkedSub (lo : Int) (x : Int) (incr : Nat) : Option Int :=
  if lo ≤ x - incr then some (x - incr) else none

/-- Embeds `sequence::Sequence { start, end, incr }` over the proxy domain.
(`end` is a Lean keyword, hence the field name `stop`.) -/
structure Seq where
  start : Int
  stop : Int
  incr : Nat
deriving DecidableEq

/-- Embeds `sequence::SequenceIterator { next, end, incr }` over the proxy domain. -/
structure SeqIter where
  next? : Option Int
  stop : Int
  incr : Nat
deriving DecidableEq

/-- Embeds `Option::filter` specialised to `(· ≤ stop)`, as used on the ascending
branch of `SequenceIterator::next`. -/
def filterLe (stop : Int) : Option Int → Option Int
  | some m => if m ≤ stop then some m else none
  | none => none

/-- Embeds `Option::filter` specialised to `(stop ≤ ·)`, as used on the descending
branch of `SequenceIterator::next`. -/
def filterGe (stop : Int) : Option Int → Option Int
  | some m => if stop ≤ m then some m else none
  | none => none

/-- The update of `self.next` performed by `SequenceIterator::next`
(`src/sequence.rs` lines 217-227): `Less` steps up by `incr` filtered to stay
`≤ end`, `Equal` clears the position, `Greater` steps down filtered to stay
`≥ end`; a failed checked operation also clears the position. -/
def seqStepNext (lo hi : Int) (it : SeqIter) (n : Int) : Option Int :=
  if n < it.stop then filterLe it.stop (checkedAdd hi n it.incr)
  else if it.stop < n then filterGe it.stop (checkedSub lo n it.incr)
  else none

/-- The list of proxy positions produced by repeatedly calling
`SequenceIterator::next`, bounded by `fuel` (the iterator itself is lazy; with
`incr ≥ 1` the fuel chosen below always exceeds the number of items). -/
def seqRun (lo hi : Int) : Nat → SeqIter → List Int
  | 0, _ => []
  | fuel + 1, it =>
    match it.next? with
    | none => []
    | some n => n :: seqRun lo hi fuel { it with next? := seqStepNext lo hi it n }

/-- Embeds `Sequence::into_iter` (`next = Some(start)`) followed by draining the
iterator.  The fuel `|end - start| + 1` is an upper bound for the item count
`|end - start| / incr + 1` whenever `incr ≥ 1`. -/
def seqItems (lo hi : Int) (q : Seq) : List Int :=
  seqRun lo hi ((q.stop - q.start).natAbs + 1)
    { next? := some q.start, stop := q.stop, incr := q.incr }

/-- Embeds `<u32 as TryInto<char>>::try_into` succeeds exactly on Unicode scalar
values: outside the surrogate block `0xD800..=0xDFFF` and at most `0x10FFFF`. -/
def isValidCodepoint (n : Int) : Bool :=
  if n < 0 then false
  else if n < 0xD800 then true
  else if n ≤ 0xDFFF then false
  else if n ≤ 0x10FFFF then true
  else false

/-! ### Rendering of sequence items (`src/lib.rs` lines 80-98) -/

/-- Decimal digits of a natural number, most significant first (fueled to stay
structural; `fuel = n + 1` always suffices since `n / 10 < n` for `n ≥ 10`). -/
def natToStrAux : Nat → Nat → Str → Str
  | 0, _, acc => acc
  | fuel + 1, n, acc =>
    let d := Char.ofNat (48 + n % 10)
    if n < 10 then d :: acc else natToStrAux fuel (n / 10) (d :: acc)

def natToStr (n : Nat) : Str := natToStrAux (n + 1) n []

/-- Rust `i64` `Display`: optional minus sign followed by decimal digits. -/
def intToStr : Int → Str
  | .ofNat n => natToStr n
  | .negSucc m => '-' :: natToStr (m + 1)

/-- Embeds `format!("{number:0width$}")`: left pad with zeros to the requested total
width, the sign (for negatives) occupying the leading position. -/
def formatIntWidth : Option Nat → Int → Str
  | none, n => intToStr n
  | some w, n =>
    if n < 0 then
      let ds := natToStr n.natAbs
      '-' :: List.replicate (w - 1 - ds.length) '0' ++ ds
    else
      let ds := natToStr n.toNat
      List.replicate (w - ds.length) '0' ++ ds

/-- The reflexive `TryFrom<i64> for i64` conversion applied to each produced
`i64` proxy: its error type is `Infallible` (embedded as `Empty`), so it always
succeeds with the value itself. -/
def i64TryInto (n : Int) : Except Empty Int := .ok n

/-- Embeds `Result::unwrap` on a `Result<_, Infallible>`: total, because the error
type is uninhabited. -/
def exceptUnwrap : Except Empty α → α
  | .ok a => a
  | .error e => nomatch e

/-- The underlying fallible items of an integer sequence iterator
(`SequenceIterator<i64>`): each proxy converted through the reflexive
`TryInto`. -/
def intRawItems (q : Seq) : List (Except Empty Int) :=
  (seqItems i64lo i64hi q).map i64TryInto

/-- Embeds `SequenceIterator::Int`'s rendering (`src/lib.rs` lines 85-94): every item
is `Ok` of the decimal text, zero padded when a width was requested; the
`unwrap` is the total unwrap on `Infallible`. -/
def intSeqStrings (width : Option Nat) (q : Seq) : List (Except Unit Str) :=
  (intRawItems q).map fun r => .ok (formatIntWidth width (exceptUnwrap r))

/-- Embeds `sequence::Sequence<char>`: endpoints are `char`s, stepping happens on the
`u32` code-point proxy. -/
structure CharSeq where
  start : Char
  stop : Char
  incr : Nat
deriving DecidableEq

/-- The proxy positions walked by a character sequence (`start.into()` /
`end.into()` are the code points). -/
def charProxies (q : CharSeq) : List Int :=
  seqItems u32lo u32hi { start := q.start.toNat, stop := q.stop.toNat, incr := q.incr }

/-- Conversion and rendering of one character item (`src/lib.rs` line 95):
`u32 → char` conversion, then `char::to_string`. -/
def charItem (n : Int) : Except Unit Str :=
  if isValidCodepoint n then .ok [Char.ofNat n.toNat] else .error ()

/-- Embeds `SequenceIterator::Char`'s item stream: each produced proxy converted
lazily, independently of its neighbours. -/
def charSeqStrings (q : CharSeq) : List (Except Unit Str) :=
  (charProxies q).map charItem

/-! ### The pattern tree (`src/lib.rs`)

`Part` is the Rust `enum Part<'a>`; `Part::Sequence` carries either an
`Sequence::Int { width, sequence }` or a `Sequence::Char(sequence)`, split here
into two constructors.  `PartList` is `Vec<Part>` (used both by `List` and by
`Expression`), kept as a mutual inductive so that all recursions over the tree
are structural. -/

mutual
inductive Part where
  | plain : Str → Part
  | list : PartList → Part
  | seqInt : Option Nat → Seq → Part
  | seqChar : CharSeq → Part
  | expression : PartList → Part
deriving DecidableEq
inductive PartList where
  | nil : PartList
  | cons : Part → PartList → PartList
deriving DecidableEq
end

/-- Modelled from the spec: `itertools::multi_cartesian_product`, the external
dependency driving `ExpressionIterator` (`src/lib.rs` lines 178, 192); its
source is not part of this repository.  Spec §4.3: the output is the n-ary
cartesian product across the `n` dimensions, enumerated with the first segment
varying slowest and the last varying fastest, and an empty Pattern (`n = 0`)
yields exactly one item (the tuple of zero candidates, which
`ExpressionIterator::next`'s `0 =>` arm turns into the empty string). -/
def multiCartesianProduct : List (List α) → List (List α)
  | [] => [[]]
  | l :: ls => l.flatMap fun x => (multiCartesianProduct ls).map (x :: ·)

/-- Embeds `parts.into_iter().collect::<Result<Vec<_>, _>>()`: the first error, or
the list of all ok values. -/
def collectExcept : List (Except Unit Str) → Except Unit (List Str)
  | [] => .ok []
  | .error e :: _ => .error e
  | .ok s :: rest =>
    match collectExcept rest with
    | .error e => .error e
    | .ok ss => .ok (s :: ss)

/-- The body of `ExpressionIterator::next` (`src/lib.rs` lines 198-210) on one
produced tuple: zero candidates give the empty string, otherwise the first
error wins, otherwise the candidates concatenate in segment order.  (The
source's separate `1 =>` arm returns the single candidate unchanged, which
coincides with the general arm.) -/
def combineParts (parts : List (Except Unit Str)) : Except Unit Str :=
  match parts with
  | [] => .ok []
  | p :: rest =>
    match collectExcept (p :: rest) with
    | .error e => .error e
    | .ok ss => .ok ss.flatten

mutual
/-- The full item stream of one `Part`'s iterator (`PartIterator::next`,
`src/lib.rs` lines 256-267): a plain part yields its text once, a list
flattens its members' streams, sequences render as above, and a nested
expression recurses into the cartesian product. -/
def Part.items : Part → List (Except Unit Str)
  | .plain s => [.ok s]
  | .list ps => PartList.flatItems ps
  | .seqInt w q => intSeqStrings w q
  | .seqChar q => charSeqStrings q
  | .expression ps => (multiCartesianProduct (PartList.itemLists ps)).map combineParts

/-- Embeds `List::into_iter` (`src/lib.rs` lines 21-29): the concatenation, in member
order, of each member's item stream. -/
def PartList.flatItems : PartList → List (Except Unit Str)
  | .nil => []
  | .cons p ps => p.items ++ PartList.flatItems ps

/-- One item stream per part, in order: the dimensions handed to
`multi_cartesian_product`. -/
def PartList.itemLists : PartList → List (List (Except Unit Str))
  | .nil => []
  | .cons p ps => p.items :: PartList.itemLists ps
end

/-- Embeds `Expression::into_iter` drained: the cartesian product of the parts'
streams, each tuple combined by `ExpressionIterator::next`. -/
def exprItems (ps : PartList) : List (Except Unit Str) :=
  (multiCartesianProduct (PartList.itemLists ps)).map combineParts

mutual
/-- Embeds `Part::into_owned` (`src/lib.rs` lines 222-231): plain text is deep
copied (`Cow::Owned`), lists and nested expressions recurse, sequences are
`Copy` and pass through. -/
def Part.intoOwned : Part → Part
  | .plain s => .plain s
  | .list ps => .list (PartList.intoOwnedList ps)
  | .seqInt w q => .seqInt w q
  | .seqChar q => .seqChar q
  | .expression ps => .expression (PartList.intoOwnedList ps)

/-- Embeds `Vec<Part>` mapped through `Part::into_owned` (`List::into_owned`,
`Expression::into_owned`). -/
def PartList.intoOwnedList : PartList → PartList
  | .nil => .nil
  | .cons p ps => .cons p.intoOwned (PartList.intoOwnedList ps)
end

/-- Embeds `<Expression as FromStr>::from_str` parses borrowed and then deep-copies
(`src/lib.rs` lines 150-157); defined below once the parser exists, this is
just the deep-copy half. -/
def intoOwnedExpr (ps : PartList) : PartList := PartList.intoOwnedList ps

/-! ### The canonical formatter (`Display` impls in `src/lib.rs`) -/

/-- Embeds `Display for Part`, `Plain` arm: prefix a backslash before any of
`,{}\`. -/
def escapePlainChar (c : Char) : Str :=
  if c = ',' ∨ c = '{' ∨ c = '}' ∨ c = '\\' then ['\\', c] else [c]

/-- Embeds `Display for Sequence`, `Char` arm's endpoint escaping: the escaped set is
`,.{}\`. -/
def escapeSeqChar (c : Char) : Str :=
  if c = ',' ∨ c = '.' ∨ c = '{' ∨ c = '}' ∨ c = '\\' then ['\\', c] else [c]

/-- Embeds `Display for Sequence`, `Int` arm: `{`, `=` when a width was requested,
`start..end`, `..incr` when `incr ≠ 1`, `}`. -/
def formatIntSeq (width : Option Nat) (q : Seq) : Str :=
  '{' :: (if width.isSome then ['='] else []) ++ intToStr q.start ++ ['.', '.'] ++
    intToStr q.stop ++ (if q.incr = 1 then [] else '.' :: '.' :: natToStr q.incr) ++ ['}']

/-- Embeds `Display for Sequence`, `Char` arm. -/
def formatCharSeq (q : CharSeq) : Str :=
  '{' :: escapeSeqChar q.start ++ ['.', '.'] ++ escapeSeqChar q.stop ++
    (if q.incr = 1 then [] else '.' :: '.' :: natToStr q.incr) ++ ['}']

mutual
/-- Embeds `Display for Part` (`src/lib.rs` lines 269-286). -/
def Part.fmt : Part → Str
  | .plain s => s.flatMap escapePlainChar
  | .list ps => '{' :: PartList.fmtComma ps ++ ['}']
  | .seqInt w q => formatIntSeq w q
  | .seqChar q => formatCharSeq q
  | .expression ps => PartList.fmtConcat ps

/-- Embeds `Display for List`: members joined by commas (first member bare). -/
def PartList.fmtComma : PartList → Str
  | .nil => []
  | .cons p ps => p.fmt ++ PartList.fmtCommaRest ps

/-- The remaining members of a list, each preceded by a comma. -/
def PartList.fmtCommaRest : PartList → Str
  | .nil => []
  | .cons p ps => ',' :: p.fmt ++ PartList.fmtCommaRest ps

/-- Embeds `Display for Expression`: the parts concatenated. -/
def PartList.fmtConcat : PartList → Str
  | .nil => []
  | .cons p ps => p.fmt ++ PartList.fmtConcat ps
end

/-- Embeds `Expression`'s `Display`. -/
def exprFormat (ps : PartList) : Str := PartList.fmtConcat ps

/-! ### The parser (`src/parser.rs`)

Each nom parser becomes `Str → Option (Str × α)`.  The loop combinators
(`many0`, `many1`'s tail loop, `separated_list0`) and the mutually recursive
grammar productions are driven by fuel; `parseExpression` supplies
`6 * length + 6` fuel, enough because every unit of grammar nesting burns at
most six fuel and consumes at least one character, and every loop iteration
burns one fuel and consumes at least one character (nom's explicit
infinite-loop checks, kept below, enforce the consumption). -/

/-- Embeds `tag(t)`: consume the exact character sequence `t`. -/
def takeTag : Str → Str → Option Str
  | [], i => some i
  | _, [] => none
  | t :: ts, c :: cs => if c = t then takeTag ts cs else none

/-- nom's `escaped(is_not(esc), '\\', one_of(esc))` (with `'\\' ∈ esc`, true
for both call sites): consume a maximal run of normal characters (outside
`esc`) and escape pairs (backslash followed by a character of `esc`),
returning the raw consumed text; a backslash followed by end of input or by a
character outside `esc` is a hard error. -/
def escapedRun (esc : Str) : Str → Option (Str × Str)
  | [] => some ([], [])
  | c :: rest =>
    if c = '\\' then
      match rest with
      | [] => none
      | e :: rest' =>
        if esc.contains e then
          match escapedRun esc rest' with
          | none => none
          | some (rem, consumed) => some (rem, c :: e :: consumed)
        else none
    else if esc.contains c then some (c :: rest, [])
    else
      match escapedRun esc rest with
      | none => none
      | some (rem, consumed) => some (rem, c :: consumed)

/-- The unescaping loop of `plain_str` (`src/parser.rs` lines 22-31): drop
each backslash, keeping the following character.  (The trailing-backslash
pattern is unreachable: `escaped` never leaves one; the Rust code would
panic there.) -/
def unescape : Str → Str
  | [] => []
  | '\\' :: c :: rest => c :: unescape rest
  | c :: rest => c :: unescape rest

/-- Embeds `plain_str(escape_chars)`: the escaped run, unescaped.  (The source
branches on whether a backslash occurred only to choose borrowed vs owned
storage; the text is the same.) -/
def plainStr (esc : Str) (i : Str) : Option (Str × Str) :=
  match escapedRun esc i with
  | none => none
  | some (rem, raw) => some (rem, unescape raw)

/-- Escape set of `top_plain`: `"\\{}"`. -/
def topEsc : Str := ['\\', '{', '}']

/-- Escape set of `list_plain`: `"\\{},"`. -/
def listEsc : Str := ['\\', '{', '}', ',']

/-- Embeds `top_plain`: a non-empty plain run at the top level (commas need no
escape). -/
def topPlainP (i : Str) : Option (Str × Part) :=
  match plainStr topEsc i with
  | none => none
  | some (_, []) => none
  | some (rem, s) => some (rem, .plain s)

/-- Embeds `list_plain`: a non-empty plain run inside a list member (commas must be
escaped). -/
def listPlainP (i : Str) : Option (Str × Part) :=
  match plainStr listEsc i with
  | none => none
  | some (_, []) => none
  | some (rem, s) => some (rem, .plain s)

/-- Embeds `sequence_char`: any character outside `.{},`; a backslash is followed by
one arbitrary character (`anychar`). -/
def sequenceCharP : Str → Option (Str × Char)
  | [] => none
  | c :: rest =>
    if c = '.' ∨ c = '{' ∨ c = '}' ∨ c = ',' then none
    else if c = '\\' then
      match rest with
      | [] => none
      | c2 :: rest' => some (rest', c2)
    else some (rest, c)

/-- One decimal digit. -/
def digitVal (c : Char) : Option Nat :=
  if '0' ≤ c ∧ c ≤ '9' then some (c.toNat - 48) else none

/-- The maximal run of decimal digits at the head of the input. -/
def takeDigits : Str → Str × List Nat
  | [] => ([], [])
  | c :: rest =>
    match digitVal c with
    | some d =>
      match takeDigits rest with
      | (rem, ds) => (rem, d :: ds)
    | none => (c :: rest, [])

def digitsToNat (ds : List Nat) : Nat := ds.foldl (fun a d => a * 10 + d) 0

/-- Embeds `nom::character::complete::u64`: at least one digit, value checked
against `u64::MAX`. -/
def parseU64 (i : Str) : Option (Str × Nat) :=
  match takeDigits i with
  | (_, []) => none
  | (rem, ds) =>
    let v := digitsToNat ds
    if v ≤ 2 ^ 64 - 1 then some (rem, v) else none

/-- Embeds `nom::character::complete::u32`. -/
def parseU32 (i : Str) : Option (Str × Nat) :=
  match takeDigits i with
  | (_, []) => none
  | (rem, ds) =>
    let v := digitsToNat ds
    if v ≤ 2 ^ 32 - 1 then some (rem, v) else none

/-- Embeds `nom::character::complete::i64`: optional sign, at least one digit, value
checked against the `i64` range. -/
def parseI64 (i : Str) : Option (Str × Int) :=
  let signed : Str × Int :=
    match i with
    | '-' :: rest => (rest, -1)
    | '+' :: rest => (rest, 1)
    | _ => (i, 1)
  match takeDigits signed.1 with
  | (_, []) => none
  | (rem, ds) =>
    let v : Int := signed.2 * digitsToNat ds
    if i64lo ≤ v ∧ v ≤ i64hi then some (rem, v) else none

/-- Embeds `number_sequence_incr`: `..` then a `u64`, coerced to at least 1. -/
def numberSequenceIncr (i : Str) : Option (Str × Nat) := do
  let i ← takeTag ['.', '.'] i
  let (i, incr) ← parseU64 i
  pure (i, if incr < 1 then 1 else incr)

/-- Embeds `char_sequence_incr`: `..` then a `u32`, coerced to at least 1. -/
def charSequenceIncr (i : Str) : Option (Str × Nat) := do
  let i ← takeTag ['.', '.'] i
  let (i, incr) ← parseU32 i
  pure (i, if incr < 1 then 1 else incr)

/-- Embeds `number_sequence` (`src/parser.rs` lines 81-108).  The fixed width, when
`=` is present, is the larger of the two endpoint tokens' consumed lengths. -/
def numberSequenceP (i0 : Str) : Option (Str × Part) := do
  let i1 ← takeTag ['{'] i0
  let equalRes := takeTag ['='] i1
  let i2 := equalRes.getD i1
  let preStart := i2.length
  let (i3, start) ← parseI64 i2
  let postStart := i3.length
  let i4 ← takeTag ['.', '.'] i3
  let preEnd := i4.length
  let (i5, stop) ← parseI64 i4
  let postEnd := i5.length
  let incrRes := numberSequenceIncr i5
  let i6 := (incrRes.map (·.1)).getD i5
  let i7 ← takeTag ['}'] i6
  let width :=
    match equalRes with
    | some _ => some ((preStart - postStart).max (preEnd - postEnd))
    | none => none
  pure (i7, Part.seqInt width
    { start := start, stop := stop, incr := ((incrRes.map (·.2)).getD 1) })

/-- Embeds `char_sequence` (`src/parser.rs` lines 110-125). -/
def charSequenceP (i0 : Str) : Option (Str × Part) := do
  let i1 ← takeTag ['{'] i0
  let (i2, start) ← sequenceCharP i1
  let i3 ← takeTag ['.', '.'] i2
  let (i4, stop) ← sequenceCharP i3
  let incrRes := charSequenceIncr i4
  let i5 := (incrRes.map (·.1)).getD i4
  let i6 ← takeTag ['}'] i5
  pure (i6, Part.seqChar
    { start := start, stop := stop, incr := ((incrRes.map (·.2)).getD 1) })

/-- Embeds `sequence`: `alt((number_sequence, char_sequence))`. -/
def sequenceP (i : Str) : Option (Str × Part) :=
  match numberSequenceP i with
  | some r => some r
  | none => charSequenceP i

mutual
/-- Embeds `list` (`src/parser.rs` lines 137-143): `{`, members separated by commas,
`}`. -/
def listP : Nat → Str → Option (Str × Part)
  | 0, _ => none
  | fuel + 1, i0 =>
    match takeTag ['{'] i0 with
    | none => none
    | some i1 =>
      match sepListMembers fuel i1 with
      | none => none
      | some (i2, items) =>
        match takeTag ['}'] i2 with
        | none => none
        | some i3 => some (i3, Part.list items)

/-- Embeds `separated_list0(tag(","), alt((list_expression, empty_plain)))`: the
first member (which, via `empty_plain`, always parses), then the comma loop. -/
def sepListMembers : Nat → Str → Option (Str × PartList)
  | 0, _ => none
  | fuel + 1, i =>
    match memberP fuel i with
    | none => some (i, PartList.nil)
    | some (i1, p) =>
      match sepListLoop fuel i1 with
      | none => none
      | some (i2, ps) => some (i2, PartList.cons p ps)

/-- The loop of `separated_list0`: a comma then a member; a failing member
backtracks to before the comma; nom's progress check on the separator is kept
(a comma always consumes, so it never fires). -/
def sepListLoop : Nat → Str → Option (Str × PartList)
  | 0, _ => none
  | fuel + 1, i =>
    match takeTag [','] i with
    | none => some (i, PartList.nil)
    | some i1 =>
      if i1.length = i.length then none
      else
        match memberP fuel i1 with
        | none => some (i, PartList.nil)
        | some (i2, p) =>
          match sepListLoop fuel i2 with
          | none => none
          | some (i3, ps) => some (i3, PartList.cons p ps)

/-- One list member: `alt((list_expression, empty_plain))`; `empty_plain`
always succeeds with an empty plain, consuming nothing. -/
def memberP : Nat → Str → Option (Str × Part)
  | 0, _ => none
  | fuel + 1, i =>
    match listExpressionP fuel i with
    | some r => some r
    | none => some (i, Part.plain [])

/-- Embeds `list_expression` (`src/parser.rs` lines 131-135): one or more
sequence/list/plain parts wrapped in `Part::Expression`. -/
def listExpressionP : Nat → Str → Option (Str × Part)
  | 0, _ => none
  | fuel + 1, i =>
    match listItemAlt fuel i with
    | none => none
    | some (i1, p) =>
      match manyLoopItems fuel i1 with
      | none => none
      | some (i2, ps) => some (i2, Part.expression (PartList.cons p ps))

/-- The tail loop shared by nom's `many1`: keep parsing items until failure,
erroring if an item succeeds without consuming (nom's `ErrorKind::Many1`
progress check). -/
def manyLoopItems : Nat → Str → Option (Str × PartList)
  | 0, _ => none
  | fuel + 1, i =>
    match listItemAlt fuel i with
    | none => some (i, PartList.nil)
    | some (i1, p) =>
      if i1.length = i.length then none
      else
        match manyLoopItems fuel i1 with
        | none => none
        | some (i2, ps) => some (i2, PartList.cons p ps)

/-- Embeds `alt((sequence, list, list_plain))`: the item alternatives inside a list
member, in priority order. -/
def listItemAlt : Nat → Str → Option (Str × Part)
  | 0, _ => none
  | fuel + 1, i =>
    match sequenceP i with
    | some r => some r
    | none =>
      match listP fuel i with
      | some r => some r
      | none => listPlainP i
end

/-- Embeds `alt((sequence, list, top_plain))`: the top-level alternatives, in
priority order. -/
def topItemAlt (fuel : Nat) (i : Str) : Option (Str × Part) :=
  match sequenceP i with
  | some r => some r
  | none =>
    match listP fuel i with
    | some r => some r
    | none => topPlainP i

/-- Embeds `many0(alt((sequence, list, top_plain)))` with nom's `ErrorKind::Many0`
progress check. -/
def many0Top : Nat → Str → Option (Str × PartList)
  | 0, _ => none
  | fuel + 1, i =>
    match topItemAlt fuel i with
    | none => some (i, PartList.nil)
    | some (i1, p) =>
      if i1.length = i.length then none
      else
        match many0Top fuel i1 with
        | none => none
        | some (i2, ps) => some (i2, PartList.cons p ps)

/-- Embeds `expression` (`src/parser.rs` lines 145-151):
`all_consuming(complete(many0(...)))`. -/
def expressionP (fuel : Nat) (i : Str) : Option (Str × PartList) :=
  match many0Top fuel i with
  | none => none
  | some (i1, ps) => if i1 = [] then some (i1, ps) else none

/-- Embeds `<Expression as TryFrom<&str>>::try_from`: run `expression` on the whole
input; any nom error becomes a parse failure. -/
def parseExpression (s : Str) : Option PartList :=
  match expressionP (6 * s.length + 6) s with
  | none => none
  | some (_, ps) => some ps

/-- Embeds `<Expression as FromStr>::from_str`: parse borrowed, then deep-copy every
part (`expression.into_owned()`). -/
def parseOwned (s : Str) : Option PartList :=
  match parseExpression s with
  | none => none
  | some ps => some (PartList.intoOwnedList ps)

/-! ### The odometer shape of the cartesian product -/

/-- The number of tuples the product of the given dimensions has. -/
def prodLen : List (List α) → Nat
  | [] => 1
  | l :: ls => l.length * prodLen ls

/-- The tuple at odometer position `k`: the first dimension is indexed by the
most significant mixed-radix digit of `k` (so it varies slowest), the last by
the least significant digit (so it varies fastest). -/
def odometerSelect? : List (List α) → Nat → Option (List α)
  | [], _ => some []
  | l :: ls, k =>
    match l[k / prodLen ls]?, odometerSelect? ls (k % prodLen ls) with
    | some x, some rest => some (x :: rest)
    | _, _ => none

/-- Embeds `Result::is_ok` on an item. -/
def isOkItem : Except e a → Bool
  | .ok _ => true
  | .error _ => false

/-! ### Closed form of the range walk -/

theorem seqRun_none (lo hi stop : Int) (incr : Nat) (fuel : Nat) :
    seqRun lo hi fuel { next? := none, stop := stop, incr := incr } = [] := by
  cases fuel <;> rfl

theorem seqRun_cons (lo hi : Int) (fuel : Nat) (stop : Int) (incr : Nat) (n : Int) :
    seqRun lo hi (fuel + 1) { next? := some n, stop := stop, incr := incr } =
      n :: seqRun lo hi fuel
        { next? := seqStepNext lo hi { next? := some n, stop := stop, incr := incr } n,
          stop := stop, incr := incr } := rfl

theorem range_map_shift (f : Nat → α) (k : Nat) :
    (List.range (k + 1)).map f = f 0 :: (List.range k).map (fun i => f (i + 1)) := by
  rw [List.range_succ_eq_map]
  simp [List.map_map, Function.comp_def]

theorem range_one_map (f : Nat → α) : (List.range 1).map f = [f 0] := rfl

theorem seqStepNext_def (lo hi : Int) (nx : Option Int) (stop : Int) (incr : Nat) (n : Int) :
    seqStepNext lo hi { next? := nx, stop := stop, incr := incr } n =
      if n < stop then filterLe stop (checkedAdd hi n incr)
      else if stop < n then filterGe stop (checkedSub lo n incr)
      else none := rfl

theorem seqRun_asc (lo hi stop : Int) (incr : Nat) (hincr : 1 ≤ incr)
    (hstop : stop ≤ hi) :
    ∀ fuel n, n ≤ stop → (stop - n).toNat / incr < fuel →
      seqRun lo hi fuel { next? := some n, stop := stop, incr := incr } =
        (List.range ((stop - n).toNat / incr + 1)).map
          (fun i : Nat => n + (incr : Int) * i) := by
  intro fuel
  induction fuel with
  | zero => intro n _ h; exact absurd h (Nat.not_lt_zero _)
  | succ fuel ih =>
    intro n hn hfuel
    rcases eq_or_lt_of_le hn with heq | hlt
    · subst heq
      have hd : (n - n).toNat / incr = 0 := by simp
      rw [hd, seqRun_cons, range_one_map, seqStepNext_def, if_neg (lt_irrefl n),
        if_neg (lt_irrefl n), seqRun_none]
      simp
    · rw [seqRun_cons, seqStepNext_def, if_pos hlt]
      by_cases hreach : n + (incr : Int) ≤ stop
      · -- one more full step
        have hadd : checkedAdd hi n incr = some (n + incr) := by
          unfold checkedAdd
          rw [if_pos (le_trans hreach hstop)]
        rw [hadd]
        simp only [filterLe]
        rw [if_pos hreach]
        have hdiv : (stop - n).toNat / incr = (stop - (n + incr)).toNat / incr + 1 := by
          have h1 : (stop - n).toNat = (stop - (n + incr)).toNat + incr := by omega
          rw [h1, Nat.add_div_right _ (by omega)]
        have hfuel' : (stop - (n + incr)).toNat / incr < fuel := by omega
        rw [ih (n + incr) hreach hfuel', hdiv]
        conv_rhs => rw [range_map_shift]
        have hfun : (fun i : Nat => n + (incr : Int) * ((i + 1 : Nat) : Int)) =
            (fun i : Nat => (n + incr) + (incr : Int) * i) := by
          funext i
          push_cast
          ring
        rw [hfun]
        congr 1
        simp
      · -- the next step would cross past `end` (or overflow): the iterator stops
        have hnone : filterLe stop (checkedAdd hi n incr) = none := by
          by_cases hov : n + (incr : Int) ≤ hi
          · rw [show checkedAdd hi n incr = some (n + incr) from by
              unfold checkedAdd; rw [if_pos hov]]
            simp only [filterLe]
            rw [if_neg hreach]
          · rw [show checkedAdd hi n incr = none from by
              unfold checkedAdd; rw [if_neg hov]]
            rfl
        rw [hnone, seqRun_none]
        have hd : (stop - n).toNat / incr = 0 := Nat.div_eq_of_lt (by omega)
        rw [hd, range_one_map]
        simp

theorem seqRun_desc (lo hi stop : Int) (incr : Nat) (hincr : 1 ≤ incr)
    (hstop : lo ≤ stop) :
    ∀ fuel n, stop ≤ n → (n - stop).toNat / incr < fuel →
      seqRun lo hi fuel { next? := some n, stop := stop, incr := incr } =
        (List.range ((n - stop).toNat / incr + 1)).map
          (fun i : Nat => n - (incr : Int) * i) := by
  intro fuel
  induction fuel with
  | zero => intro n _ h; exact absurd h (Nat.not_lt_zero _)
  | succ fuel ih =>
    intro n hn hfuel
    rcases eq_or_lt_of_le hn with heq | hlt
    · subst heq
      have hd : (stop - stop).toNat / incr = 0 := by simp
      rw [hd, seqRun_cons, range_one_map, seqStepNext_def, if_neg (lt_irrefl stop),
        if_neg (lt_irrefl stop), seqRun_none]
      simp
    · rw [seqRun_cons, seqStepNext_def, if_neg (by omega : ¬ n < stop), if_pos hlt]
      by_cases hreach : stop ≤ n - (incr : Int)
      · have hsub : checkedSub lo n incr = some (n - incr) := by
          unfold checkedSub
          rw [if_pos (le_trans hstop hreach)]
        rw [hsub]
        simp only [filterGe]
        rw [if_pos hreach]
        have hdiv : (n - stop).toNat / incr = ((n - incr) - stop).toNat / incr + 1 := by
          have h1 : (n - stop).toNat = ((n - incr) - stop).toNat + incr := by omega
          rw [h1, Nat.add_div_right _ (by omega)]
        have hfuel' : ((n - incr) - stop).toNat / incr < fuel := by omega
        rw [ih (n - incr) hreach hfuel', hdiv]
        conv_rhs => rw [range_map_shift]
        have hfun : (fun i : Nat => n - (incr : Int) * ((i + 1 : Nat) : Int)) =
            (fun i : Nat => (n - incr) - (incr : Int) * i) := by
          funext i
          push_cast
          ring
        rw [hfun]
        congr 1
        simp
      · push_neg at hreach
        have hnone : filterGe stop (checkedSub lo n incr) = none := by
          by_cases hov : lo ≤ n - (incr : Int)
          · rw [show checkedSub lo n incr = some (n - incr) from by
              unfold checkedSub; rw [if_pos hov]]
            simp only [filterGe]
            rw [if_neg (by omega)]
          · rw [show checkedSub lo n incr = none from by
              unfold checkedSub; rw [if_neg hov]]
            rfl
        rw [hnone, seqRun_none]
        have hd : (n - stop).toNat / incr = 0 := Nat.div_eq_of_lt (by omega)
        rw [hd, range_one_map]
        simp

theorem seqItems_asc (lo hi : Int) (q : Seq) (hincr : 1 ≤ q.incr)
    (hstop : q.stop ≤ hi) (hle : q.start ≤ q.stop) :
    seqItems lo hi q =
      (List.range ((q.stop - q.start).toNat / q.incr + 1)).map
        (fun i : Nat => q.start + (q.incr : Int) * i) := by
  unfold seqItems
  apply seqRun_asc lo hi q.stop q.incr hincr hstop _ q.start hle
  have h1 : (q.stop - q.start).natAbs = (q.stop - q.start).toNat := by omega
  have h2 : (q.stop - q.start).toNat / q.incr ≤ (q.stop - q.start).toNat :=
    Nat.div_le_self _ _
  omega

theorem seqItems_desc (lo hi : Int) (q : Seq) (hincr : 1 ≤ q.incr)
    (hstop : lo ≤ q.stop) (hle : q.stop ≤ q.start) :
    seqItems lo hi q =
      (List.range ((q.start - q.stop).toNat / q.incr + 1)).map
        (fun i : Nat => q.start - (q.incr : Int) * i) := by
  unfold seqItems
  apply seqRun_desc lo hi q.stop q.incr hincr hstop _ q.start hle
  have h1 : (q.stop - q.start).natAbs = (q.start - q.stop).toNat := by omega
  have h2 : (q.start - q.stop).toNat / q.incr ≤ (q.start - q.stop).toNat :=
    Nat.div_le_self _ _
  omega

theorem mcp_length : ∀ ls : List (List α), (multiCartesianProduct ls).length = prodLen ls := by
  intro ls
  induction ls with
  | nil => rfl
  | cons l ls ih =>
    show (l.flatMap fun x => (multiCartesianProduct ls).map (x :: ·)).length = _
    induction l with
    | nil => simp [prodLen]
    | cons a l ihl =>
      rw [List.flatMap_cons, List.length_append, List.length_map, ihl, ih]
      show prodLen ls + l.length * prodLen ls = (l.length + 1) * prodLen ls
      ring

theorem flatMap_uniform_getElem? (l : List α) (f : α → List β) (P : Nat) (hP : 0 < P)
    (hlen : ∀ a, (f a).length = P) :
    ∀ k, k < l.length * P →
      (l.flatMap f)[k]? = (l[k / P]?).bind fun a => (f a)[k % P]? := by
  induction l with
  | nil => intro k hk; simp at hk
  | cons a l ih =>
    intro k hk
    rw [List.flatMap_cons]
    by_cases h : k < P
    · rw [List.getElem?_append_left (by rw [hlen]; exact h)]
      rw [Nat.div_eq_of_lt h, Nat.mod_eq_of_lt h]
      simp
    · push_neg at h
      obtain ⟨j, rfl⟩ : ∃ j, k = P + j := ⟨k - P, by omega⟩
      rw [List.getElem?_append_right (by rw [hlen]; omega)]
      rw [hlen]
      have hk' : j < l.length * P := by
        have hmul : (a :: l).length * P = l.length * P + P := by
          rw [List.length_cons]; ring
        rw [hmul] at hk
        omega
      rw [show P + j - P = j by omega, ih j hk', Nat.add_div_left j hP, Nat.add_mod_left P j,
        List.getElem?_cons_succ]

theorem mcp_getElem? : ∀ (ls : List (List α)) (k : Nat), k < prodLen ls →
    (multiCartesianProduct ls)[k]? = odometerSelect? ls k := by
  intro ls
  induction ls with
  | nil =>
    intro k hk
    have hk0 : k = 0 := by
      have : prodLen ([] : List (List α)) = 1 := rfl
      omega
    subst hk0
    rfl
  | cons l ls ih =>
    intro k hk
    have hk' : k < l.length * prodLen ls := hk
    have hP : 0 < prodLen ls := by
      rcases Nat.eq_zero_or_pos (prodLen ls) with h0 | h
      · rw [h0] at hk'
        omega
      · exact h
    show (l.flatMap fun x => (multiCartesianProduct ls).map (x :: ·))[k]? = _
    rw [flatMap_uniform_getElem? l _ (prodLen ls) hP
      (fun a => by rw [List.length_map, mcp_length]) k hk']
    show _ = odometerSelect? (l :: ls) k
    have hmod : k % prodLen ls < prodLen ls := Nat.mod_lt _ hP
    cases hcl : l[k / prodLen ls]? with
    | none => simp [odometerSelect?, hcl]
    | some a =>
      simp only [odometerSelect?, hcl, Option.some_bind]
      rw [List.getElem?_map, ih _ hmod]
      cases odometerSelect? ls (k % prodLen ls) <;> simp

theorem collectExcept_map_ok (strs : List Str) :
    collectExcept (strs.map Except.ok) = .ok strs := by
  induction strs with
  | nil => rfl
  | cons s rest ih =>
    show collectExcept (.ok s :: rest.map Except.ok) = _
    simp [collectExcept, ih]

theorem combineParts_map_ok (strs : List Str) :
    combineParts (strs.map Except.ok) = .ok strs.flatten := by
  cases strs with
  | nil => rfl
  | cons s rest =>
    show combineParts (.ok s :: rest.map Except.ok) = _
    have h := collectExcept_map_ok (s :: rest)
    simp only [List.map_cons] at h
    simp [combineParts, h]

/-! ### Claims about the range engine -/

/-- Claim C4: for every range descriptor with representable endpoints
(`lo ≤ start, end ≤ hi`, which is automatic for `i64` endpoints over the `i64`
proxy and for `char` endpoints over the `u32` proxy) and positive step, the
iterator produces exactly `⌊|end − start| / step⌋ + 1` proxy values, all of
them inside `[min(start,end), max(start,end)]`, strictly increasing when
`start < end`, strictly decreasing when `start > end`, and the single value
`start` when the endpoints coincide.  (No extra no-overflow assumption is
needed: with in-range endpoints the `≤ end`/`≥ end` filter always fires before
checked arithmetic can fail.) -/
theorem c4_range_count_bounds_direction (lo hi : Int) (q : Seq) (hincr : 1 ≤ q.incr)
    (hlo1 : lo ≤ q.start) (hhi1 : q.start ≤ hi) (hlo2 : lo ≤ q.stop) (hhi2 : q.stop ≤ hi) :
    (seqItems lo hi q).length = (q.stop - q.start).natAbs / q.incr + 1 ∧
    (∀ x ∈ seqItems lo hi q, min q.start q.stop ≤ x ∧ x ≤ max q.start q.stop) ∧
    (q.start < q.stop → List.Chain' (· < ·) (seqItems lo hi q)) ∧
    (q.stop < q.start → List.Chain' (· > ·) (seqItems lo hi q)) ∧
    (q.start = q.stop → seqItems lo hi q = [q.start]) := by
  have hipos : (0 : Int) < q.incr := by exact_mod_cast hincr
  rcases lt_trichotomy q.start q.stop with hlt | heq | hgt
  · -- ascending
    have hcf := seqItems_asc lo hi q hincr hhi2 (le_of_lt hlt)
    have habs : (q.stop - q.start).natAbs = (q.stop - q.start).toNat := by omega
    refine ⟨?_, ?_, fun _ => ?_, fun h => absurd h (by omega), fun h => absurd h (by omega)⟩
    · rw [hcf, List.length_map, List.length_range, habs]
    · intro x hx
      rw [hcf] at hx
      simp only [List.mem_map, List.mem_range] at hx
      obtain ⟨i, hilt, rfl⟩ := hx
      have hile : i * q.incr ≤ (q.stop - q.start).toNat :=
        (Nat.le_div_iff_mul_le (by omega)).mp (by omega)
      have hcast : (q.incr : Int) * i ≤ q.stop - q.start := by
        calc (q.incr : Int) * i = ((i * q.incr : Nat) : Int) := by push_cast; ring
          _ ≤ ((q.stop - q.start).toNat : Int) := by exact_mod_cast hile
          _ = q.stop - q.start := by omega
      have h0 : 0 ≤ (q.incr : Int) * i := by positivity
      rw [min_eq_left (le_of_lt hlt), max_eq_right (le_of_lt hlt)]
      constructor <;> linarith
    · rw [hcf, List.chain'_map]
      refine (List.chain'_range_succ _ _).mpr fun m _ => ?_
      have hmono : (q.incr : Int) * m < (q.incr : Int) * (m + 1) :=
        mul_lt_mul_of_pos_left (by linarith) hipos
      push_cast
      linarith
  · -- degenerate
    have hcf := seqItems_asc lo hi q hincr hhi2 (le_of_eq heq)
    have hz : (q.stop - q.start).toNat = 0 := by omega
    rw [hz, Nat.zero_div] at hcf
    have hsingle : seqItems lo hi q = [q.start] := by
      rw [hcf, range_one_map]
      simp
    refine ⟨?_, ?_, fun h => absurd h (by omega), fun h => absurd h (by omega), fun _ => hsingle⟩
    · rw [hsingle]
      have habs : (q.stop - q.start).natAbs = 0 := by omega
      rw [habs]
      simp
    · intro x hx
      rw [hsingle] at hx
      simp only [List.mem_singleton] at hx
      subst hx
      omega
  · -- descending
    have hcf := seqItems_desc lo hi q hincr hlo2 (le_of_lt hgt)
    have habs : (q.stop - q.start).natAbs = (q.start - q.stop).toNat := by omega
    refine ⟨?_, ?_, fun h => absurd h (by omega), fun _ => ?_, fun h => absurd h (by omega)⟩
    · rw [hcf, List.length_map, List.length_range, habs]
    · intro x hx
      rw [hcf] at hx
      simp only [List.mem_map, List.mem_range] at hx
      obtain ⟨i, hilt, rfl⟩ := hx
      have hile : i * q.incr ≤ (q.start - q.stop).toNat :=
        (Nat.le_div_iff_mul_le (by omega)).mp (by omega)
      have hcast : (q.incr : Int) * i ≤ q.start - q.stop := by
        calc (q.incr : Int) * i = ((i * q.incr : Nat) : Int) := by push_cast; ring
          _ ≤ ((q.start - q.stop).toNat : Int) := by exact_mod_cast hile
          _ = q.start - q.stop := by omega
      have h0 : 0 ≤ (q.incr : Int) * i := by positivity
      rw [min_eq_right (le_of_lt hgt), max_eq_left (le_of_lt hgt)]
      constructor <;> linarith
    · rw [hcf, List.chain'_map]
      refine (List.chain'_range_succ _ _).mpr fun m _ => ?_
      have hmono : (q.incr : Int) * m < (q.incr : Int) * (m + 1) :=
        mul_lt_mul_of_pos_left (by linarith) hipos
      push_cast
      linarith

/-- Witness for C4: `{-10..10..3}` over the `i64` proxy has
`⌊20/3⌋ + 1 = 7` items, concretely `-10,-7,-4,-1,2,5,8`. -/
theorem c4_witness :
    (seqItems i64lo i64hi { start := -10, stop := 10, incr := 3 }).length =
      ((10 : Int) - (-10 : Int)).natAbs / 3 + 1 ∧
    seqItems i64lo i64hi { start := -10, stop := 10, incr := 3 } =
      [-10, -7, -4, -1, 2, 5, 8] := by
  have h := c4_range_count_bounds_direction i64lo i64hi
    { start := -10, stop := 10, incr := 3 }
    (by decide) (by decide) (by decide) (by decide) (by decide)
  exact ⟨h.1, by decide⟩

/-- Claim C7: when the next checked step would overflow the proxy type
(ascending: `n + incr > hi`; descending: `n - incr < lo`), the iterator simply
stops after yielding the current value: the run is exactly `[n]`, no error
item exists at this layer (proxy items are plain values; errors can only arise
later, in per-item conversion), and the item produced before the overflow
point is unaffected. -/
theorem c7_overflow_silently_stops (lo hi stop : Int) (incr : Nat) (n : Int) (fuel : Nat) :
    (n < stop → hi < n + incr →
      seqRun lo hi (fuel + 1) { next? := some n, stop := stop, incr := incr } = [n]) ∧
    (stop < n → n - incr < lo →
      seqRun lo hi (fuel + 1) { next? := some n, stop := stop, incr := incr } = [n]) := by
  constructor
  · intro h1 h2
    rw [seqRun_cons, seqStepNext_def, if_pos h1,
      show checkedAdd hi n incr = none from by unfold checkedAdd; rw [if_neg (by omega)],
      show filterLe stop none = none from rfl, seqRun_none]
  · intro h1 h2
    rw [seqRun_cons, seqStepNext_def, if_neg (by omega), if_pos h1,
      show checkedSub lo n incr = none from by unfold checkedSub; rw [if_neg (by omega)],
      show filterGe stop none = none from rfl, seqRun_none]

/-- Witness for C7: stepping by 5 from `i64::MAX - 1` towards `i64::MAX`
(respectively from `i64::MIN + 1` towards `i64::MIN`) overflows the checked
arithmetic, and the run is the single already-produced value. -/
theorem c7_witness :
    seqRun i64lo i64hi 3 { next? := some (i64hi - 1), stop := i64hi, incr := 5 } =
      [i64hi - 1] ∧
    seqRun i64lo i64hi 3 { next? := some (i64lo + 1), stop := i64lo, incr := 5 } =
      [i64lo + 1] :=
  ⟨(c7_overflow_silently_stops i64lo i64hi i64hi 5 (i64hi - 1) 2).1 (by decide) (by decide),
   (c7_overflow_silently_stops i64lo i64hi i64lo 5 (i64lo + 1) 2).2 (by decide) (by decide)⟩

/-- Claim C8: a character range walks its proxy positions independently of
conversion: the rendered stream has exactly one item per proxy position (a
conversion failure never truncates or aborts the remainder), and the item at
position `k` is an error precisely when that proxy position is not a valid
Unicode scalar value, the valid positions still converting to their
characters. -/
theorem c8_char_conversion_isolated (q : CharSeq) :
    (charSeqStrings q).length = (charProxies q).length ∧
    ∀ (k : Nat) (n : Int), (charProxies q)[k]? = some n →
      (charSeqStrings q)[k]? =
        some (if isValidCodepoint n then (Except.ok [Char.ofNat n.toNat] : Except Unit Str)
          else Except.error ()) := by
  constructor
  · exact List.length_map ..
  · intro k n hk
    show ((charProxies q).map charItem)[k]? = _
    rw [List.getElem?_map, hk]
    rfl

/-- Witness for C8: the walk `{U+D700..U+E000..0x480}` passes through the
surrogate `0xDB80`; that position alone is an error item and the later valid
position `0xE000` is still produced. -/
theorem c8_witness :
    (charProxies { start := Char.ofNat 0xD700, stop := Char.ofNat 0xE000, incr := 0x480 })[1]? =
      some 0xDB80 ∧
    (charSeqStrings
        { start := Char.ofNat 0xD700, stop := Char.ofNat 0xE000, incr := 0x480 })[1]? =
      some (.error ()) ∧
    (charSeqStrings
        { start := Char.ofNat 0xD700, stop := Char.ofNat 0xE000, incr := 0x480 })[2]? =
      some (.ok [Char.ofNat 0xE000]) := by
  refine ⟨by decide, ?_, ?_⟩
  · have h := (c8_char_conversion_isolated
      { start := Char.ofNat 0xD700, stop := Char.ofNat 0xE000, incr := 0x480 }).2
      1 0xDB80 (by decide)
    exact h.trans (by decide)
  · have h := (c8_char_conversion_isolated
      { start := Char.ofNat 0xD700, stop := Char.ofNat 0xE000, incr := 0x480 }).2
      2 0xE000 (by decide)
    exact h.trans (by decide)

/-- Claim C10: the underlying items of an integer sequence iterator are always
`Ok` (the `i64` proxy-to-value conversion is the reflexive, infallible
`TryFrom`), so the `unwrap` in the decimal rendering can never hit an error
value, and the rendered integer items are never character-conversion errors. -/
theorem c10_int_items_never_error (q : Seq) (w : Option Nat) :
    (∀ r ∈ intRawItems q, isOkItem r = true ∧ r = .ok (exceptUnwrap r)) ∧
    (∀ r ∈ intSeqStrings w q, isOkItem r = true) := by
  constructor
  · intro r hr
    obtain ⟨n, -, rfl⟩ := List.mem_map.mp hr
    exact ⟨rfl, rfl⟩
  · intro r hr
    obtain ⟨n, -, rfl⟩ := List.mem_map.mp hr
    rfl

/-- Witness for C10 at the parsed range `{1..2}`. -/
theorem c10_witness :
    isOkItem (Except.ok (1 : Int) : Except Empty Int) = true ∧
    isOkItem (Except.ok ['1'] : Except Unit Str) = true :=
  ⟨((c10_int_items_never_error { start := 1, stop := 2, incr := 1 } none).1
      (.ok 1) (by decide)).1,
   (c10_int_items_never_error { start := 1, stop := 2, incr := 1 } none).2
      (.ok ['1']) (by decide)⟩

/-! ### Claims about the expander -/

mutual
theorem Part.intoOwned_id : ∀ p : Part, p.intoOwned = p
  | .plain _ => rfl
  | .list ps => congrArg Part.list (PartList.intoOwnedList_id ps)
  | .seqInt _ _ => rfl
  | .seqChar _ => rfl
  | .expression ps => congrArg Part.expression (PartList.intoOwnedList_id ps)

theorem PartList.intoOwnedList_id : ∀ ps : PartList, PartList.intoOwnedList ps = ps
  | .nil => rfl
  | .cons p ps =>
    congrArg₂ PartList.cons (Part.intoOwned_id p) (PartList.intoOwnedList_id ps)
end

/-- Claim C9: for every input accepted by the parser, the owned expression
built by `FromStr` (parse, then `into_owned`, deep-copying every borrowed
literal) expands to exactly the same ordered item stream as the borrowed
expression built by `TryFrom`; the deep copy rebuilds an identical tree, so
expansion results and their order are unchanged. -/
theorem c9_owned_expansion_eq (s : Str) (ps : PartList) (hp : parseExpression s = some ps) :
    parseOwned s = some (PartList.intoOwnedList ps) ∧
    exprItems (PartList.intoOwnedList ps) = exprItems ps := by
  constructor
  · unfold parseOwned
    rw [hp]
  · rw [PartList.intoOwnedList_id]

/-- Witness for C9 at the input `a{1..2}`. -/
theorem c9_witness :
    parseOwned ['a', '{', '1', '.', '.', '2', '}'] =
      some (PartList.intoOwnedList
        (PartList.cons (Part.plain ['a'])
          (PartList.cons (Part.seqInt none { start := 1, stop := 2, incr := 1 })
            PartList.nil))) ∧
    exprItems (PartList.intoOwnedList
        (PartList.cons (Part.plain ['a'])
          (PartList.cons (Part.seqInt none { start := 1, stop := 2, incr := 1 })
            PartList.nil))) =
      exprItems (PartList.cons (Part.plain ['a'])
        (PartList.cons (Part.seqInt none { start := 1, stop := 2, incr := 1 })
          PartList.nil)) :=
  c9_owned_expansion_eq ['a', '{', '1', '.', '.', '2', '}']
    (PartList.cons (Part.plain ['a'])
      (PartList.cons (Part.seqInt none { start := 1, stop := 2, incr := 1 })
        PartList.nil))
    (by decide)

/-- Claim C2 (spec-modelled product for the external `multi_cartesian_product`
adaptor): the empty input parses to the empty pattern (zero segments), and
iterating it yields exactly one item, the empty string. -/
theorem c2_empty_pattern_one_empty_item :
    parseExpression [] = some PartList.nil ∧
    exprItems PartList.nil = [Except.ok ([] : Str)] := by
  exact ⟨by decide, by decide⟩

/-- Claim C1 (spec-modelled product for the external `multi_cartesian_product`
adaptor): for every successfully parsed pattern, the expansion has exactly
`∏ cᵢ` items where `cᵢ` is the item count of segment `i`; the item at odometer
position `k` combines exactly one candidate per segment, the first segment
indexed by the most significant mixed-radix digit of `k` (slowest varying) and
the last by the least significant digit (fastest varying); and a tuple of
plain string candidates is combined by concatenation in segment order. -/
theorem c1_product_odometer (s : Str) (ps : PartList) (hp : parseExpression s = some ps) :
    (exprItems ps).length = prodLen (PartList.itemLists ps) ∧
    (∀ k : Nat, k < prodLen (PartList.itemLists ps) →
      (exprItems ps)[k]? = (odometerSelect? (PartList.itemLists ps) k).map combineParts) ∧
    (∀ strs : List Str, combineParts (strs.map Except.ok) = .ok strs.flatten) := by
  refine ⟨?_, ?_, combineParts_map_ok⟩
  · unfold exprItems
    rw [List.length_map, mcp_length]
  · intro k hk
    unfold exprItems
    rw [List.getElem?_map, mcp_getElem? _ _ hk]

/-- Witness for C1 at `{a,b}{1..2}` (counts `2 × 2 = 4`; position 3 selects
digit 1 of segment 1 and digit 1 of segment 2, i.e. `b` and `2`). -/
theorem c1_witness :
    (exprItems (PartList.cons
        (Part.list (PartList.cons (Part.expression (PartList.cons (Part.plain ['a']) PartList.nil))
          (PartList.cons (Part.expression (PartList.cons (Part.plain ['b']) PartList.nil))
            PartList.nil)))
        (PartList.cons (Part.seqInt none { start := 1, stop := 2, incr := 1 })
          PartList.nil))).length =
      prodLen (PartList.itemLists (PartList.cons
        (Part.list (PartList.cons (Part.expression (PartList.cons (Part.plain ['a']) PartList.nil))
          (PartList.cons (Part.expression (PartList.cons (Part.plain ['b']) PartList.nil))
            PartList.nil)))
        (PartList.cons (Part.seqInt none { start := 1, stop := 2, incr := 1 })
          PartList.nil))) ∧
    (exprItems (PartList.cons
        (Part.list (PartList.cons (Part.expression (PartList.cons (Part.plain ['a']) PartList.nil))
          (PartList.cons (Part.expression (PartList.cons (Part.plain ['b']) PartList.nil))
            PartList.nil)))
        (PartList.cons (Part.seqInt none { start := 1, stop := 2, incr := 1 })
          PartList.nil)))[3]? =
      (odometerSelect? (PartList.itemLists (PartList.cons
        (Part.list (PartList.cons (Part.expression (PartList.cons (Part.plain ['a']) PartList.nil))
          (PartList.cons (Part.expression (PartList.cons (Part.plain ['b']) PartList.nil))
            PartList.nil)))
        (PartList.cons (Part.seqInt none { start := 1, stop := 2, incr := 1 })
          PartList.nil))) 3).map combineParts := by
  have h := c1_product_odometer
    ['{', 'a', ',', 'b', '}', '{', '1', '.', '.', '2', '}']
    (PartList.cons
      (Part.list (PartList.cons (Part.expression (PartList.cons (Part.plain ['a']) PartList.nil))
        (PartList.cons (Part.expression (PartList.cons (Part.plain ['b']) PartList.nil))
          PartList.nil)))
      (PartList.cons (Part.seqInt none { start := 1, stop := 2, incr := 1 })
        PartList.nil))
    (by decide)
  exact ⟨h.1, h.2.1 3 (by decide)⟩

/-! ### Claims about the parser and the formatter -/

/-- Claim C3 (round-trip failure in the code): the canonical escaping rules
escape every literal comma (`Display for Part` backslash-escapes each of
`,{}\`), but the top-level plain parser only accepts `\`, `{`, `}` after a
backslash, so the canonical text `a\,b` (the canonical form of the literal
`a,b`) does not parse at all: `format (parse \"a,b\") = \"a\\,b\"` and
`parse \"a\\,b\"` is an error, hence `format (parse t) = t` fails on canonical
texts containing a top-level comma.  Inside a list, where `,` is in the escape
set, the same text round-trips fine. -/
theorem c3_roundtrip_escaped_comma_bug :
    parseExpression ['a', ',', 'b'] =
      some (PartList.cons (Part.plain ['a', ',', 'b']) PartList.nil) ∧
    exprFormat (PartList.cons (Part.plain ['a', ',', 'b']) PartList.nil) =
      ['a', '\\', ',', 'b'] ∧
    parseExpression ['a', '\\', ',', 'b'] = none ∧
    (parseExpression ['{', 'a', ',', 'b', '\\', ',', 'c', '}']).map exprFormat =
      some ['{', 'a', ',', 'b', '\\', ',', 'c', '}'] := by
  exact ⟨by decide, by decide, by decide, by decide⟩

/-- Claim C5 counterexample: `{}` does NOT produce a list with zero
alternatives, and a pattern containing `{}` does NOT expand to the empty
sequence: `{}` parses to a `List` with exactly one member (an empty plain),
and its expansion is the one-item stream `[Ok \"\"]`. -/
theorem c5_counterexample :
    parseExpression ['{', '}'] =
      some (PartList.cons (Part.list (PartList.cons (Part.plain []) PartList.nil))
        PartList.nil) ∧
    exprItems (PartList.cons (Part.list (PartList.cons (Part.plain []) PartList.nil))
        PartList.nil) ≠ [] := by
  exact ⟨by decide, by decide⟩

/-- Claim C5 amended: parsing `{}` produces a `List` with exactly one
alternative, the empty literal (because `separated_list0`'s first member parse
succeeds via `empty_plain` without consuming anything), so `{}` contributes
exactly one candidate, the empty string, and a pattern containing `{}` expands
as if `{}` were deleted (`a{}b` yields exactly `ab`); `{}` is still not
treated as a literal two-character string. -/
theorem c5_amended_one_empty_alternative :
    parseExpression ['{', '}'] =
      some (PartList.cons (Part.list (PartList.cons (Part.plain []) PartList.nil))
        PartList.nil) ∧
    Part.items (Part.list (PartList.cons (Part.plain []) PartList.nil)) =
      [Except.ok ([] : Str)] ∧
    exprItems (PartList.cons (Part.list (PartList.cons (Part.plain []) PartList.nil))
        PartList.nil) = [Except.ok ([] : Str)] ∧
    parseExpression ['a', '{', '}', 'b'] =
      some (PartList.cons (Part.plain ['a'])
        (PartList.cons (Part.list (PartList.cons (Part.plain []) PartList.nil))
          (PartList.cons (Part.plain ['b']) PartList.nil))) ∧
    exprItems (PartList.cons (Part.plain ['a'])
        (PartList.cons (Part.list (PartList.cons (Part.plain []) PartList.nil))
          (PartList.cons (Part.plain ['b']) PartList.nil))) =
      [Except.ok ['a', 'b']] ∧
    parseExpression ['{', '}'] ≠
      some (PartList.cons (Part.plain ['{', '}']) PartList.nil) := by
  exact ⟨by decide, by decide, by decide, by decide, by decide, by decide⟩

/-- Claim C6 counterexample: a top-level `{` matched by none of
numeric range, character range or list is NOT consumed as a literal
character; the whole parse fails (`top_plain` cannot consume an unescaped
`{`, so `all_consuming` rejects the input). -/
theorem c6_counterexample : parseExpression ['{'] = none := by decide

/-- Claim C6 amended: at every `{` the parser tries numeric range, then
character range, then list, in that order (`{1..2}` becomes an integer range
even though a character range also matches; `{a..b}` becomes a character range
even though a list also matches); if none of the three match, the parse fails
— inside a list member (an unmatched `{` is a hard error) and at the top
level alike, where the unmatched `{` is never consumed as a literal. -/
theorem c6_amended_brace_dispatch :
    parseExpression ['{', '1', '.', '.', '2', '}'] =
      some (PartList.cons (Part.seqInt none { start := 1, stop := 2, incr := 1 })
        PartList.nil) ∧
    charSequenceP ['{', '1', '.', '.', '2', '}'] ≠ none ∧
    parseExpression ['{', 'a', '.', '.', 'b', '}'] =
      some (PartList.cons (Part.seqChar { start := 'a', stop := 'b', incr := 1 })
        PartList.nil) ∧
    listP 42 ['{', 'a', '.', '.', 'b', '}'] ≠ none ∧
    parseExpression ['{', 'a', '}'] =
      some (PartList.cons
        (Part.list (PartList.cons
          (Part.expression (PartList.cons (Part.plain ['a']) PartList.nil)) PartList.nil))
        PartList.nil) ∧
    parseExpression ['{', 'a', '{', 'b'] = none ∧
    (∀ s : Str, numberSequenceP ('{' :: s) = none → charSequenceP ('{' :: s) = none →
      listP (6 * s.length + 11) ('{' :: s) = none → parseExpression ('{' :: s) = none) := by
  refine ⟨by decide, by decide, by decide, by decide, by decide, by decide, ?_⟩
  intro s h1 h2 h3
  have hfuel : 6 * ('{' :: s).length + 6 = (6 * s.length + 11) + 1 := by
    rw [List.length_cons]
    ring
  unfold parseExpression expressionP
  rw [hfuel]
  have hseq : sequenceP ('{' :: s) = none := by
    unfold sequenceP
    rw [h1]
    exact h2
  have he : escapedRun topEsc ('{' :: s) = some ('{' :: s, []) := by
    unfold escapedRun
    rw [if_neg (by decide), if_pos (by decide)]
  have htp : topPlainP ('{' :: s) = none := by
    unfold topPlainP plainStr
    rw [he]
    rfl
  have halt : topItemAlt (6 * s.length + 11) ('{' :: s) = none := by
    unfold topItemAlt
    rw [hseq, h3, htp]
  have hm : many0Top ((6 * s.length + 11) + 1) ('{' :: s) =
      some ('{' :: s, PartList.nil) := by
    show (match topItemAlt (6 * s.length + 11) ('{' :: s) with
      | none => some (('{' :: s), PartList.nil)
      | some (i1, p) =>
        if i1.length = ('{' :: s).length then none
        else
          match many0Top (6 * s.length + 11) i1 with
          | none => none
          | some (i2, ps) => some (i2, PartList.cons p ps)) = _
    rw [halt]
  rw [hm]
  rfl

/-- Witness for C6 (the general unmatched-`{` conjunct, applied at the
concrete input `{@`, on which all three bracketed alternatives fail). -/
theorem c6_witness : parseExpression ['{', '@'] = none :=
  c6_amended_brace_dispatch.2.2.2.2.2.2 ['@'] (by decide) (by decide) (by decide)

end Bexpand
